import Mathlib

/-!
# Quiz progression of `pmp-quizzer-go` (`main.go`)

A shallow embedding of the four HTTP handlers of `main.go` and of the two
in-memory SQLite tables they read and write.

* The database is a value of type `DB`; every handler is a function from the
  database before the request to the database after it and the response.
* `allQuestions` (a process-wide slice, fixed after startup) is a parameter.
* The `quiz_id` of the cookie session is the request parameter
  `quizIDraw : Option String` (`none`: no cookie value).
* `uuid.NewString()` is the parameter `newID` of `startExamHandler`.
* A Go run-time panic (index out of range) is `Response.runtimePanic`;
  `log.Fatalf` is `Response.fatal`.
* `current_index` is a Go `int`, modelled as `Int`.  The only arithmetic on it is
  `currentIndex + 1`, evaluated after `allQuestions[currentIndex]` succeeded, so
  the sum is at most `len(allQuestions)` and cannot wrap.
-/

namespace PmpQuizzer

/-! ## Data model -/

/-- Go `type Question struct`. -/
structure Question where
  Text : String
  Options : List String
  CorrectAnswer : String
  Difficulty : String
  deriving DecidableEq

/-- Go `type AnsweredQuestion struct`. -/
structure AnsweredQuestion where
  Question : Question
  UserAnswer : String
  CorrectAnswer : String
  Difficulty : String
  deriving DecidableEq

/-- One row of table `answers` (no key is declared on it). -/
structure AnswerRow where
  quiz_id : String
  question_index : Int
  user_answer : String
  correct_answer : String
  difficulty : String
  deriving DecidableEq

/-- The in-memory database: the rows of `quiz_state` (`quiz_id`, `current_index`)
and the rows of `answers`, both in insertion order. -/
structure DB where
  quiz_state : List (String × Int)
  answers : List AnswerRow
  deriving DecidableEq

/-- The database right after `CREATE TABLE quiz_state`, `CREATE TABLE answers`. -/
def emptyDB : DB := ⟨[], []⟩

/-- HTTP methods under which `/end` is routed. -/
inductive Method where
  | GET
  | POST
  deriving DecidableEq

/-- What a handler does with the request. -/
inductive Response where
  /-- The call `c.Redirect(http.StatusSeeOther, loc)`. -/
  | redirect (loc : String)
  /-- The call `c.HTML(http.StatusOK, "exam.html", ...)` with `Question`, `CurrentIndex`, `TotalCount` -/
  | examPage (question : Question) (currentIndex : Int) (totalCount : Int)
  /-- The call `c.HTML(http.StatusOK, "summary.html", ...)` with `Answered`, `Correct`, `Total` -/
  | summaryPage (answered : List AnsweredQuestion) (correct : Int) (total : Int)
  /-- A Go run-time panic: index out of range. -/
  | runtimePanic
  /-- The call `log.Fatalf`: the process exits. -/
  | fatal
  deriving DecidableEq

/-! ## SQL statements -/

/-- The query `SELECT current_index FROM quiz_state WHERE quiz_id = ?` read by `QueryRow(...).Scan`:
the first matching row, `none` for `sql.ErrNoRows`. -/
def selectCurrentIndex (db : DB) (quizID : String) : Option Int :=
  (db.quiz_state.find? (fun r => decide (r.1 = quizID))).map Prod.snd

/-- The statement `INSERT INTO quiz_state(quiz_id, current_index) VALUES (?, ?)`; `quiz_id` is the
primary key, so the insert fails (`none`) when the key is present. -/
def insertQuizState (db : DB) (quizID : String) (currentIndex : Int) : Option DB :=
  if (db.quiz_state.any (fun r => decide (r.1 = quizID))) = true then none
  else some { db with quiz_state := db.quiz_state ++ [(quizID, currentIndex)] }

/-- The statement `UPDATE quiz_state SET current_index = ? WHERE quiz_id = ?`. -/
def updateCurrentIndex (db : DB) (nextIndex : Int) (quizID : String) : DB :=
  { db with quiz_state :=
      db.quiz_state.map (fun r => if r.1 = quizID then (r.1, nextIndex) else r) }

/-- The statement `INSERT INTO answers(quiz_id, question_index, user_answer, correct_answer, difficulty)`. -/
def insertAnswer (db : DB) (quizID : String) (questionIndex : Int)
    (userAnswer correctAnswer difficulty : String) : DB :=
  { db with answers :=
      db.answers ++ [⟨quizID, questionIndex, userAnswer, correctAnswer, difficulty⟩] }

/-- The rows of `answers` with the given `quiz_id`, in insertion order. -/
def answersOf (db : DB) (quizID : String) : List AnswerRow :=
  db.answers.filter (fun r => decide (r.quiz_id = quizID))

/-- The query `SELECT ... FROM answers WHERE quiz_id = ? ORDER BY question_index ASC`
(rows with equal `question_index` stay in insertion order). -/
def selectAnswers (db : DB) (quizID : String) : List AnswerRow :=
  (answersOf db quizID).insertionSort (fun a b => a.question_index ≤ b.question_index)

/-! ## Go helpers -/

/-- The slice access `allQuestions[i]`; `none` is the index-out-of-range panic. -/
def index (allQuestions : List Question) (i : Int) : Option Question :=
  if i < 0 then none else allQuestions[i.toNat]?

/-- The `for rows.Next()` loop of `endHandler`: each row is rehydrated with
`allQuestions[qi]`; `none` when that access panics. -/
def rehydrate (allQuestions : List Question) : List AnswerRow → Option (List AnsweredQuestion)
  | [] => some []
  | r :: rows =>
    match index allQuestions r.question_index with
    | none => none
    | some q =>
      match rehydrate allQuestions rows with
      | none => none
      | some answered => some (⟨q, r.user_answer, r.correct_answer, r.difficulty⟩ :: answered)

/-- The `for _, a := range answered` loop of `endHandler`. -/
def correctCount (answered : List AnsweredQuestion) : Int :=
  answered.foldl (fun c a => if a.UserAnswer = a.CorrectAnswer then c + 1 else c) 0

/-! ## Handlers -/

/-- The handler `startExamHandler`, with `newID` the value of `uuid.NewString()`. -/
def startExamHandler (db : DB) (newID : String) : DB × Response :=
  match insertQuizState db newID 0 with
  | none => (db, Response.fatal)
  | some db1 => (db1, Response.redirect "/q")

/-- The handler `questionHandler`. -/
def questionHandler (allQuestions : List Question) (db : DB) (quizIDraw : Option String) :
    DB × Response :=
  match quizIDraw with
  | none => (db, Response.redirect "/")
  | some quizID =>
    match selectCurrentIndex db quizID with
    | none => (db, Response.redirect "/")
    | some currentIndex =>
      if currentIndex ≥ (allQuestions.length : Int) then (db, Response.redirect "/end")
      else
        match index allQuestions currentIndex with
        | none => (db, Response.runtimePanic)
        | some q => (db, Response.examPage q currentIndex allQuestions.length)

/-- The handler `nextHandler`, with `answer` the value of `c.PostForm("answer")`. -/
def nextHandler (allQuestions : List Question) (db : DB) (quizIDraw : Option String)
    (answer : String) : DB × Response :=
  match quizIDraw with
  | none => (db, Response.redirect "/")
  | some quizID =>
    match selectCurrentIndex db quizID with
    | none => (db, Response.redirect "/")
    | some currentIndex =>
      match index allQuestions currentIndex with
      | none => (db, Response.runtimePanic)
      | some q =>
        let selected := answer
        let db1 := insertAnswer db quizID currentIndex selected q.CorrectAnswer q.Difficulty
        let nextIndex := currentIndex + 1
        let db2 := updateCurrentIndex db1 nextIndex quizID
        if nextIndex ≥ (allQuestions.length : Int) then (db2, Response.redirect "/end")
        else (db2, Response.redirect "/q")

/-- Step 2 of `endHandler`: on a POST with `currentIndex < len(allQuestions)` the final
answer is inserted and the index advanced; `none` when `allQuestions[currentIndex]`
panics. -/
def captureFinal (allQuestions : List Question) (db : DB) (method : Method)
    (quizID : String) (currentIndex : Int) (answer : String) : Option DB :=
  if method = Method.POST then
    if currentIndex < (allQuestions.length : Int) then
      match index allQuestions currentIndex with
      | none => none
      | some q =>
        let selected := answer
        let db1 := insertAnswer db quizID currentIndex selected q.CorrectAnswer q.Difficulty
        some (updateCurrentIndex db1 (currentIndex + 1) quizID)
    else some db
  else some db

/-- The handler `endHandler`, with `method` the value of `c.Request.Method` and `answer` the value
of `c.PostForm("answer")`. -/
def endHandler (allQuestions : List Question) (db : DB) (method : Method)
    (quizIDraw : Option String) (answer : String) : DB × Response :=
  match quizIDraw with
  | none => (db, Response.redirect "/")
  | some quizID =>
    match selectCurrentIndex db quizID with
    | none => (db, Response.redirect "/")
    | some currentIndex =>
      match captureFinal allQuestions db method quizID currentIndex answer with
      | none => (db, Response.runtimePanic)
      | some db1 =>
        match rehydrate allQuestions (selectAnswers db1 quizID) with
        | none => (db1, Response.runtimePanic)
        | some answered =>
          (db1, Response.summaryPage answered (correctCount answered) answered.length)

/-! ## Requests and reachable databases -/

/-- One request to the router. -/
inductive Action where
  /-- Request `GET /`. -/
  | start (newID : String)
  /-- Request `GET /q`. -/
  | question (quizIDraw : Option String)
  /-- Request `POST /next`. -/
  | next (quizIDraw : Option String) (answer : String)
  /-- Requests `GET /end` and `POST /end`. -/
  | finish (method : Method) (quizIDraw : Option String) (answer : String)
  deriving DecidableEq

/-- The router: dispatch of one request. -/
def handle (allQuestions : List Question) (db : DB) : Action → DB × Response
  | Action.start newID => startExamHandler db newID
  | Action.question quizIDraw => questionHandler allQuestions db quizIDraw
  | Action.next quizIDraw answer => nextHandler allQuestions db quizIDraw answer
  | Action.finish method quizIDraw answer => endHandler allQuestions db method quizIDraw answer

/-- The database after a finite sequence of requests. -/
def run (allQuestions : List Question) (db : DB) (actions : List Action) : DB :=
  actions.foldl (fun d a => (handle allQuestions d a).1) db

/-- The databases the process can be in: those obtained from the empty database by
a finite sequence of requests. -/
inductive Reachable (allQuestions : List Question) : DB → Prop where
  | init : Reachable allQuestions emptyDB
  | step {db : DB} (a : Action) :
      Reachable allQuestions db → Reachable allQuestions (handle allQuestions db a).1

/-- The database after `POST /next` requests with the given answers, in order, and
the responses to them. -/
def submitAll (allQuestions : List Question) (db : DB) (quizID : String) :
    List String → DB × List Response
  | [] => (db, [])
  | answer :: rest =>
    let r := nextHandler allQuestions db (some quizID) answer
    let rs := submitAll allQuestions r.1 quizID rest
    (rs.1, r.2 :: rs.2)

/-! ## The scenario of the specification -/

/-- The catalog of three questions with correct answers "A", "B", "C". -/
def demoCatalog : List Question :=
  [⟨"Q0", ["A", "B", "C"], "A", "easy"⟩,
   ⟨"Q1", ["A", "B", "C"], "B", "medium"⟩,
   ⟨"Q2", ["A", "B", "C"], "C", "hard"⟩]

/-! ## Definitions used by the statements -/

/-- The two writes made for an answered question, as in steps 2 and 3 of `nextHandler`
and in step 2 of `endHandler`: the answer row is inserted, then the index advanced. -/
def advance (db : DB) (quizID : String) (currentIndex : Int) (selected : String)
    (q : Question) : DB :=
  updateCurrentIndex (insertAnswer db quizID currentIndex selected q.CorrectAnswer q.Difficulty)
    (currentIndex + 1) quizID

/-- The properties kept by every request: each `current_index` lies in `[0, N]`, the
question indices of every token's answer rows are `0, 1, ..., current_index - 1` in
insertion order, and every answer row carries the correct answer and difficulty of the
question it indexes. -/
structure Inv (allQuestions : List Question) (db : DB) : Prop where
  bounds : ∀ r ∈ db.quiz_state, 0 ≤ r.2 ∧ r.2 ≤ (allQuestions.length : Int)
  log : ∀ t, (answersOf db t).map AnswerRow.question_index
    = (List.range ((selectCurrentIndex db t).getD 0).toNat).map Int.ofNat
  snapshot : ∀ r ∈ db.answers, ∃ q, index allQuestions r.question_index = some q
    ∧ r.correct_answer = q.CorrectAnswer ∧ r.difficulty = q.Difficulty

/-- The relation between an answer row and the summary entry built from it by the
`for rows.Next()` loop of `endHandler`. -/
def Rehydrated (allQuestions : List Question) (r : AnswerRow) (a : AnsweredQuestion) : Prop :=
  index allQuestions r.question_index = some a.Question ∧ a.UserAnswer = r.user_answer
    ∧ a.CorrectAnswer = r.correct_answer ∧ a.Difficulty = r.difficulty

/-- Steps 3 to 5 of `endHandler` as a function of the token's answer rows. -/
def summaryOf (allQuestions : List Question) (rows : List AnswerRow) : Response :=
  match rehydrate allQuestions
      (rows.insertionSort (fun a b => a.question_index ≤ b.question_index)) with
  | none => Response.runtimePanic
  | some answered => Response.summaryPage answered (correctCount answered) answered.length

/-- The scenario's requests: start, then the answers "A", "X", "C". -/
def demoActions : List Action :=
  [Action.start "t", Action.next (some "t") "A", Action.next (some "t") "X",
   Action.next (some "t") "C"]

/-- The scenario's database after the first answer (index 1 of 3). -/
def demoMid : DB := run demoCatalog emptyDB (demoActions.take 2)

/-- The scenario's database after all three answers (index 3 of 3). -/
def demoFinished : DB := run demoCatalog emptyDB demoActions

/-- The answer rows written for the questions `qs`, numbered from `k`, when answered
with `os` in order. -/
def rowsFrom (quizID : String) : Nat → List Question → List String → List AnswerRow
  | k, q :: qs, o :: os =>
    ⟨quizID, (k : Int), o, q.CorrectAnswer, q.Difficulty⟩ :: rowsFrom quizID (k + 1) qs os
  | _, _, _ => []

/-- A fresh start followed by `POST /next` requests with the given answers. -/
def playAll (allQuestions : List Question) (db : DB) (quizID : String)
    (answers : List String) : DB × List Response :=
  submitAll allQuestions (startExamHandler db quizID).1 quizID answers

/-- The token a request is addressed to: the new `quiz_id` of a start, the `quiz_id` of
the cookie session otherwise. -/
def Action.token : Action → Option String
  | Action.start newID => some newID
  | Action.question quizIDraw => quizIDraw
  | Action.next quizIDraw _ => quizIDraw
  | Action.finish _ quizIDraw _ => quizIDraw

/-- A catalog of one question whose `correct_answer` is the empty string. -/
def blankCatalog : List Question := [⟨"Q0", ["A", "B"], "", "easy"⟩]

/-- The database after a start and one empty answer over `blankCatalog`. -/
def blankDB : DB :=
  run blankCatalog emptyDB [Action.start "t", Action.next (some "t") ""]

/-! # Theorems -/

/-! ## Facts about the SQL statements -/

theorem selectCurrentIndex_insertAnswer (db : DB) (t u : String) (i : Int) (ua ca d : String) :
    selectCurrentIndex (insertAnswer db t i ua ca d) u = selectCurrentIndex db u := rfl

theorem answersOf_updateCurrentIndex (db : DB) (n : Int) (t u : String) :
    answersOf (updateCurrentIndex db n t) u = answersOf db u := rfl

theorem find_update (l : List (String × Int)) (n : Int) (t u : String) :
    ((l.map (fun r => if r.1 = t then (r.1, n) else r)).find? (fun r => decide (r.1 = u))).map
        Prod.snd
      = if u = t then ((l.find? (fun r => decide (r.1 = t))).map Prod.snd).map (fun _ => n)
        else (l.find? (fun r => decide (r.1 = u))).map Prod.snd := by
  induction l with
  | nil => simp
  | cons r l ih =>
    simp only [List.map_cons, List.find?_cons]
    by_cases hrt : r.1 = t
    · by_cases hut : u = t
      · subst hut; simp [hrt]
      · have htu : ¬ t = u := fun h => hut h.symm
        simp only [hrt, if_true, htu, decide_False, ih, hut, if_false]
    · by_cases hru : r.1 = u
      · have hut : ¬ u = t := fun h => hrt (hru.trans h)
        simp [hrt, hru, hut]
      · simp only [hrt, if_false, hru, decide_False, ih]

theorem selectCurrentIndex_updateCurrentIndex (db : DB) (n : Int) (t u : String) :
    selectCurrentIndex (updateCurrentIndex db n t) u
      = if u = t then (selectCurrentIndex db t).map (fun _ => n)
        else selectCurrentIndex db u := by
  unfold selectCurrentIndex updateCurrentIndex
  exact find_update db.quiz_state n t u

theorem any_key_false_iff (l : List (String × Int)) (t : String) :
    l.any (fun r => decide (r.1 = t)) = false ↔ l.find? (fun r => decide (r.1 = t)) = none := by
  induction l with
  | nil => simp
  | cons r l ih =>
    by_cases h : r.1 = t <;> simp [List.find?, h]

theorem insertQuizState_eq_none (db : DB) (t : String) (i : Int) :
    insertQuizState db t i = none ↔ selectCurrentIndex db t ≠ none := by
  unfold insertQuizState selectCurrentIndex
  cases h : db.quiz_state.any (fun r => decide (r.1 = t))
  · have := (any_key_false_iff db.quiz_state t).1 h
    simp [this]
  · have : db.quiz_state.find? (fun r => decide (r.1 = t)) ≠ none := by
      intro hn
      have := (any_key_false_iff db.quiz_state t).2 hn
      rw [h] at this; exact Bool.noConfusion this
    simpa using this

theorem insertQuizState_fresh (db : DB) (t : String) (i : Int)
    (h : selectCurrentIndex db t = none) :
    insertQuizState db t i = some { db with quiz_state := db.quiz_state ++ [(t, i)] } := by
  unfold insertQuizState selectCurrentIndex at *
  have hf : db.quiz_state.find? (fun r => decide (r.1 = t)) = none := by
    simpa using h
  have := (any_key_false_iff db.quiz_state t).2 hf
  simp [this]

theorem selectCurrentIndex_append_fresh (db : DB) (t u : String) (i : Int)
    (h : selectCurrentIndex db t = none) :
    selectCurrentIndex { db with quiz_state := db.quiz_state ++ [(t, i)] } u
      = if u = t then some i else selectCurrentIndex db u := by
  unfold selectCurrentIndex at *
  simp only [List.find?_append]
  by_cases hut : u = t
  · subst hut
    have hf : db.quiz_state.find? (fun r => decide (r.1 = u)) = none := by simpa using h
    simp [hf, List.find?]
  · have : ¬ t = u := fun h => hut h.symm
    cases hq : db.quiz_state.find? (fun r => decide (r.1 = u)) <;> simp [hut, List.find?, this]

theorem answersOf_insertAnswer (db : DB) (t u : String) (i : Int) (ua ca d : String) :
    answersOf (insertAnswer db t i ua ca d) u
      = if u = t then answersOf db u ++ [⟨t, i, ua, ca, d⟩] else answersOf db u := by
  unfold answersOf insertAnswer
  by_cases hut : u = t
  · subst hut; simp [List.filter_append, List.filter]
  · have : ¬ t = u := fun h => hut h.symm
    simp [List.filter_append, List.filter, hut, this]

theorem index_eq_some (cat : List Question) (i : Int) (q : Question)
    (h : index cat i = some q) : 0 ≤ i ∧ i < (cat.length : Int) ∧ cat[i.toNat]? = some q := by
  unfold index at h
  by_cases hi : i < 0
  · simp [hi] at h
  · simp only [hi, if_false] at h
    have hlt : i.toNat < cat.length := by
      rcases Nat.lt_or_ge i.toNat cat.length with h1 | h1
      · exact h1
      · rw [List.getElem?_eq_none h1] at h; exact Option.noConfusion h
    refine ⟨by omega, by omega, h⟩

theorem index_some_of_range (cat : List Question) (i : Int) (h0 : 0 ≤ i)
    (h1 : i < (cat.length : Int)) : ∃ q, index cat i = some q := by
  unfold index
  have hlt : i.toNat < cat.length := by omega
  refine ⟨cat[i.toNat], ?_⟩
  simp [List.getElem?_eq_getElem hlt]
  omega

theorem index_none_of_ge (cat : List Question) (i : Int) (h : (cat.length : Int) ≤ i) :
    index cat i = none := by
  unfold index
  have : cat.length ≤ i.toNat := by omega
  simp [List.getElem?_eq_none this]

/-! ## Facts about the handlers -/

theorem nextHandler_of_index (cat : List Question) (db : DB) (t a : String) (p : Int)
    (q : Question) (hp : selectCurrentIndex db t = some p) (hq : index cat p = some q) :
    nextHandler cat db (some t) a
      = (advance db t p a q,
          if p + 1 ≥ (cat.length : Int) then Response.redirect "/end"
          else Response.redirect "/q") := by
  unfold nextHandler advance
  simp only [hp, hq]
  split <;> rfl

theorem nextHandler_of_panic (cat : List Question) (db : DB) (t a : String) (p : Int)
    (hp : selectCurrentIndex db t = some p) (hq : index cat p = none) :
    nextHandler cat db (some t) a = (db, Response.runtimePanic) := by
  unfold nextHandler
  simp only [hp, hq]

theorem captureFinal_cases (cat : List Question) (db : DB) (m : Method) (t a : String)
    (p : Int) :
    (captureFinal cat db m t p a = none ∧ m = Method.POST ∧ p < 0)
    ∨ (captureFinal cat db m t p a = some db ∧ (m = Method.GET ∨ (cat.length : Int) ≤ p))
    ∨ (∃ q, index cat p = some q ∧ m = Method.POST
        ∧ captureFinal cat db m t p a = some (advance db t p a q)) := by
  unfold captureFinal
  cases m with
  | GET => right; left; simp
  | POST =>
    by_cases hlt : p < (cat.length : Int)
    · cases hq : index cat p with
      | none =>
        left
        have hneg : p < 0 := by
          by_contra hneg
          obtain ⟨q, hq2⟩ := index_some_of_range cat p (by omega) hlt
          rw [hq] at hq2; exact Option.noConfusion hq2
        simp [hlt, hneg]
      | some q =>
        right; right
        exact ⟨q, rfl, rfl, by simp [hlt, advance]⟩
    · right; left
      have : (cat.length : Int) ≤ p := by omega
      simp [hlt, this]

theorem endHandler_unknown (cat : List Question) (db : DB) (m : Method) (t a : String)
    (hp : selectCurrentIndex db t = none) :
    endHandler cat db m (some t) a = (db, Response.redirect "/") := by
  unfold endHandler
  simp only [hp]

theorem endHandler_fst (cat : List Question) (db db1 : DB) (m : Method) (t a : String) (p : Int)
    (hp : selectCurrentIndex db t = some p) (hc : captureFinal cat db m t p a = some db1) :
    (endHandler cat db m (some t) a).1 = db1 := by
  unfold endHandler
  simp only [hp, hc]
  split <;> rfl

theorem endHandler_fst_panic (cat : List Question) (db : DB) (m : Method) (t a : String)
    (p : Int) (hp : selectCurrentIndex db t = some p)
    (hc : captureFinal cat db m t p a = none) :
    endHandler cat db m (some t) a = (db, Response.runtimePanic) := by
  unfold endHandler
  simp only [hp, hc]

theorem questionHandler_fst (cat : List Question) (db : DB) (t : Option String) :
    (questionHandler cat db t).1 = db := by
  unfold questionHandler
  repeat' split
  all_goals rfl

/-- Every request leaves the database unchanged, or inserts a fresh `quiz_state` row with
index 0 for the token it is addressed to, or records one answer for the known token it
is addressed to, whose current question exists. -/
theorem handle_cases_token (cat : List Question) (db : DB) (act : Action) :
    (handle cat db act).1 = db
    ∨ (∃ t, act.token = some t ∧ selectCurrentIndex db t = none
        ∧ (handle cat db act).1 = { db with quiz_state := db.quiz_state ++ [(t, 0)] })
    ∨ (∃ t p a q, act.token = some t ∧ selectCurrentIndex db t = some p
        ∧ index cat p = some q ∧ (handle cat db act).1 = advance db t p a q) := by
  cases act with
  | start newID =>
    simp only [handle, startExamHandler]
    cases hs : selectCurrentIndex db newID with
    | none =>
      right; left
      refine ⟨newID, rfl, hs, ?_⟩
      rw [insertQuizState_fresh db newID 0 hs]
    | some p =>
      left
      have : insertQuizState db newID 0 = none :=
        (insertQuizState_eq_none db newID 0).2 (by simp [hs])
      rw [this]
  | question t => left; exact questionHandler_fst cat db t
  | next t a =>
    simp only [handle]
    cases t with
    | none => left; rfl
    | some t =>
      cases hp : selectCurrentIndex db t with
      | none => left; simp [nextHandler, hp]
      | some p =>
        cases hq : index cat p with
        | none => left; rw [nextHandler_of_panic cat db t a p hp hq]
        | some q =>
          right; right
          exact ⟨t, p, a, q, rfl, hp, hq, by rw [nextHandler_of_index cat db t a p q hp hq]⟩
  | finish m t a =>
    simp only [handle]
    cases t with
    | none => left; rfl
    | some t =>
      cases hp : selectCurrentIndex db t with
      | none => left; rw [endHandler_unknown cat db m t a hp]
      | some p =>
        rcases captureFinal_cases cat db m t a p with h | h | ⟨q, hq, _, h⟩
        · left; rw [endHandler_fst_panic cat db m t a p hp h.1]
        · left; exact endHandler_fst cat db db m t a p hp h.1
        · right; right
          exact ⟨t, p, a, q, rfl, hp, hq, endHandler_fst cat db _ m t a p hp h⟩

theorem handle_cases (cat : List Question) (db : DB) (act : Action) :
    (handle cat db act).1 = db
    ∨ (∃ t, selectCurrentIndex db t = none
        ∧ (handle cat db act).1 = { db with quiz_state := db.quiz_state ++ [(t, 0)] })
    ∨ (∃ t p a q, selectCurrentIndex db t = some p ∧ index cat p = some q
        ∧ (handle cat db act).1 = advance db t p a q) := by
  rcases handle_cases_token cat db act with h | ⟨t, _, ht, h⟩ | ⟨t, p, a, q, _, hp, hq, h⟩
  · exact Or.inl h
  · exact Or.inr (Or.inl ⟨t, ht, h⟩)
  · exact Or.inr (Or.inr ⟨t, p, a, q, hp, hq, h⟩)

/-! ## The invariant -/

theorem selectCurrentIndex_mem (db : DB) (t : String) (p : Int)
    (h : selectCurrentIndex db t = some p) : (t, p) ∈ db.quiz_state := by
  unfold selectCurrentIndex at h
  cases hf : db.quiz_state.find? (fun r => decide (r.1 = t)) with
  | none => rw [hf] at h; exact Option.noConfusion h
  | some r =>
    rw [hf] at h
    have hmem := List.mem_of_find?_eq_some hf
    have hkey := List.find?_some hf
    have h2 : r.2 = p := by simpa using h
    have h1 : r.1 = t := by simpa using hkey
    have : r = (t, p) := by rw [← h1, ← h2]
    rw [← this]; exact hmem

theorem selectCurrentIndex_advance (db : DB) (t u a : String) (p : Int) (q : Question)
    (hp : selectCurrentIndex db t = some p) :
    selectCurrentIndex (advance db t p a q) u
      = if u = t then some (p + 1) else selectCurrentIndex db u := by
  unfold advance
  rw [selectCurrentIndex_updateCurrentIndex, selectCurrentIndex_insertAnswer,
    selectCurrentIndex_insertAnswer, hp]
  rfl

theorem answersOf_advance (db : DB) (t u a : String) (p : Int) (q : Question) :
    answersOf (advance db t p a q) u
      = if u = t then answersOf db u ++ [⟨t, p, a, q.CorrectAnswer, q.Difficulty⟩]
        else answersOf db u := by
  unfold advance
  rw [answersOf_updateCurrentIndex, answersOf_insertAnswer]

theorem inv_empty (cat : List Question) : Inv cat emptyDB := by
  refine ⟨?_, ?_, ?_⟩
  · intro r hr; simp [emptyDB] at hr
  · intro t; simp [emptyDB, answersOf, selectCurrentIndex]
  · intro r hr; simp [emptyDB] at hr

theorem inv_fresh (cat : List Question) (db : DB) (t : String) (hinv : Inv cat db)
    (ht : selectCurrentIndex db t = none) :
    Inv cat { db with quiz_state := db.quiz_state ++ [(t, 0)] } := by
  refine ⟨?_, ?_, ?_⟩
  · intro r hr
    simp only [List.mem_append, List.mem_singleton] at hr
    rcases hr with hr | hr
    · exact hinv.bounds r hr
    · subst hr; simp
  · intro u
    rw [selectCurrentIndex_append_fresh db t u 0 ht]
    have hl := hinv.log u
    by_cases hut : u = t
    · subst hut
      rw [ht] at hl
      simpa [answersOf] using hl
    · simpa [answersOf, hut] using hl
  · exact hinv.snapshot

theorem inv_advance (cat : List Question) (db : DB) (t a : String) (p : Int) (q : Question)
    (hinv : Inv cat db) (hp : selectCurrentIndex db t = some p) (hq : index cat p = some q) :
    Inv cat (advance db t p a q) := by
  obtain ⟨h0, hN, _⟩ := index_eq_some cat p q hq
  refine ⟨?_, ?_, ?_⟩
  · intro r hr
    simp only [advance, updateCurrentIndex, insertAnswer, List.mem_map] at hr
    obtain ⟨r0, hr0, rfl⟩ := hr
    by_cases hk : r0.1 = t
    · simp only [hk, if_true]; constructor <;> omega
    · simp only [hk, if_false]; exact hinv.bounds r0 hr0
  · intro u
    rw [selectCurrentIndex_advance db t u a p q hp, answersOf_advance]
    have hl := hinv.log u
    by_cases hut : u = t
    · subst hut
      rw [hp] at hl
      simp only [if_true, List.map_append, hl, Option.getD_some, List.map_cons, List.map_nil]
      have : (p + 1).toNat = p.toNat + 1 := by omega
      rw [this, List.range_succ, List.map_append]
      simp only [List.map_cons, List.map_nil]
      have : Int.ofNat p.toNat = p := by
        simp only [Int.ofNat_eq_coe]; omega
      rw [this]
    · simpa [hut] using hl
  · intro r hr
    simp only [advance, updateCurrentIndex, insertAnswer, List.mem_append,
      List.mem_singleton] at hr
    rcases hr with hr | hr
    · exact hinv.snapshot r hr
    · subst hr; exact ⟨q, hq, rfl, rfl⟩

theorem inv_handle (cat : List Question) (db : DB) (act : Action) (hinv : Inv cat db) :
    Inv cat (handle cat db act).1 := by
  rcases handle_cases cat db act with h | ⟨t, ht, h⟩ | ⟨t, p, a, q, hp, hq, h⟩
  · rw [h]; exact hinv
  · rw [h]; exact inv_fresh cat db t hinv ht
  · rw [h]; exact inv_advance cat db t a p q hinv hp hq

theorem inv_of_reachable (cat : List Question) (db : DB) (h : Reachable cat db) :
    Inv cat db := by
  induction h with
  | init => exact inv_empty cat
  | step a _ ih => exact inv_handle cat _ a ih

theorem reachable_run (cat : List Question) (actions : List Action) (db : DB)
    (h : Reachable cat db) : Reachable cat (run cat db actions) := by
  induction actions generalizing db with
  | nil => exact h
  | cons a rest ih => exact ih _ (Reachable.step a h)

theorem reachable_iff_run (cat : List Question) (db : DB) :
    Reachable cat db ↔ ∃ actions, db = run cat emptyDB actions := by
  constructor
  · intro h
    induction h with
    | init => exact ⟨[], rfl⟩
    | step a _ ih =>
      obtain ⟨actions, rfl⟩ := ih
      exact ⟨actions ++ [a], by simp [run, List.foldl_append]⟩
  · rintro ⟨actions, rfl⟩
    exact reachable_run cat actions emptyDB Reachable.init

/-- A request never lowers the index of a token that is present. -/
theorem handle_mono (cat : List Question) (db : DB) (act : Action) (u : String) (p : Int)
    (hu : selectCurrentIndex db u = some p) :
    ∃ p', selectCurrentIndex (handle cat db act).1 u = some p' ∧ p ≤ p' := by
  rcases handle_cases cat db act with h | ⟨t, ht, h⟩ | ⟨t, p0, a, q, hp, hq, h⟩
  · rw [h]; exact ⟨p, hu, le_refl p⟩
  · rw [h, selectCurrentIndex_append_fresh db t u 0 ht]
    have hut : ¬ u = t := by
      intro e; subst e; rw [ht] at hu; exact Option.noConfusion hu
    exact ⟨p, by simp [hut, hu], le_refl p⟩
  · rw [h, selectCurrentIndex_advance db t u a p0 q hp]
    by_cases hut : u = t
    · subst hut
      rw [hp] at hu
      have : p0 = p := by simpa using hu
      subst this
      exact ⟨p0 + 1, by simp, by omega⟩
    · exact ⟨p, by simp [hut, hu], le_refl p⟩

/-! ## The summary -/

theorem foldl_count (l : List AnsweredQuestion) (c : Int) :
    l.foldl (fun c a => if a.UserAnswer = a.CorrectAnswer then c + 1 else c) c
      = c + (l.countP (fun a => decide (a.UserAnswer = a.CorrectAnswer)) : Int) := by
  induction l generalizing c with
  | nil => simp
  | cons a l ih =>
    rw [List.foldl_cons, ih, List.countP_cons]
    by_cases h : a.UserAnswer = a.CorrectAnswer
    · simp [h]; omega
    · simp [h]

theorem correctCount_eq_countP (l : List AnsweredQuestion) :
    correctCount l = (l.countP (fun a => decide (a.UserAnswer = a.CorrectAnswer)) : Int) := by
  unfold correctCount
  rw [foldl_count]; simp

theorem correctCount_bounds (l : List AnsweredQuestion) :
    0 ≤ correctCount l ∧ correctCount l ≤ (l.length : Int) := by
  rw [correctCount_eq_countP]
  have := List.countP_le_length (fun a : AnsweredQuestion => decide (a.UserAnswer = a.CorrectAnswer))
    (l := l)
  constructor <;> omega

theorem rehydrate_eq_some (cat : List Question) (rows : List AnswerRow)
    (answered : List AnsweredQuestion) :
    rehydrate cat rows = some answered ↔ List.Forall₂ (Rehydrated cat) rows answered := by
  induction rows generalizing answered with
  | nil =>
    cases answered <;> simp [rehydrate]
  | cons r rows ih =>
    unfold rehydrate
    cases hq : index cat r.question_index with
    | none =>
      simp only []
      constructor
      · intro h; exact Option.noConfusion h
      · intro h
        cases h with
        | cons h1 _ =>
          have h11 : index cat r.question_index = some _ := h1.1
          rw [hq] at h11; exact Option.noConfusion h11
    | some q =>
      cases hr : rehydrate cat rows with
      | none =>
        simp only []
        constructor
        · intro h; exact Option.noConfusion h
        · intro h
          cases h with
          | cons _ h2 =>
            have := (ih _).2 h2
            rw [hr] at this; exact Option.noConfusion this
      | some tl =>
        simp only []
        have htl := (ih tl).1 hr
        constructor
        · intro h
          have h' := Option.some.inj h
          subst h'
          exact List.Forall₂.cons ⟨hq, rfl, rfl, rfl⟩ htl
        · intro h
          cases h with
          | @cons _ a _ tl' h1 h2 =>
            have e := (ih tl').2 h2
            rw [hr] at e
            have e' := Option.some.inj e
            subst e'
            obtain ⟨h11, h12, h13, h14⟩ := h1
            rw [hq] at h11
            have h11' := Option.some.inj h11
            cases a
            simp only at h11' h12 h13 h14
            subst h11' h12 h13 h14
            rfl

theorem rehydrate_total (cat : List Question) (rows : List AnswerRow)
    (h : ∀ r ∈ rows, ∃ q, index cat r.question_index = some q) :
    ∃ answered, rehydrate cat rows = some answered := by
  induction rows with
  | nil => exact ⟨[], rfl⟩
  | cons r rows ih =>
    obtain ⟨q, hq⟩ := h r (List.mem_cons_self _ _)
    obtain ⟨tl, htl⟩ := ih (fun r' hr' => h r' (List.mem_cons_of_mem _ hr'))
    refine ⟨⟨q, r.user_answer, r.correct_answer, r.difficulty⟩ :: tl, ?_⟩
    simp only [rehydrate, hq, htl]

theorem endHandler_snd (cat : List Question) (db db1 : DB) (m : Method) (t a : String) (p : Int)
    (hp : selectCurrentIndex db t = some p) (hc : captureFinal cat db m t p a = some db1) :
    (endHandler cat db m (some t) a).2 = summaryOf cat (answersOf db1 t) := by
  cases hr : rehydrate cat (selectAnswers db1 t) with
  | none =>
    have hr' := hr
    unfold selectAnswers at hr'
    simp only [endHandler, summaryOf, hp, hc, hr, hr']
  | some answered =>
    have hr' := hr
    unfold selectAnswers at hr'
    simp only [endHandler, summaryOf, hp, hc, hr, hr']

theorem summaryOf_summary (cat : List Question) (rows : List AnswerRow)
    (answered : List AnsweredQuestion) (c n : Int)
    (h : summaryOf cat rows = Response.summaryPage answered c n) :
    List.Forall₂ (Rehydrated cat)
        (rows.insertionSort (fun a b => a.question_index ≤ b.question_index)) answered
      ∧ c = correctCount answered ∧ n = (answered.length : Int)
      ∧ answered.length = rows.length := by
  unfold summaryOf at h
  cases hr : rehydrate cat
      (rows.insertionSort (fun a b => a.question_index ≤ b.question_index)) with
  | none => rw [hr] at h; exact Response.noConfusion h
  | some ans =>
    rw [hr] at h
    simp only [Response.summaryPage.injEq] at h
    obtain ⟨h1, h2, h3⟩ := h
    subst h1
    have hf := (rehydrate_eq_some cat _ ans).1 hr
    refine ⟨hf, h2.symm, h3.symm, ?_⟩
    rw [← hf.length_eq, List.length_insertionSort]

/-! ## Sorted logs -/

theorem sorted_of_indices (rows : List AnswerRow) (n : Nat)
    (h : rows.map AnswerRow.question_index = (List.range n).map Int.ofNat) :
    rows.Pairwise (fun a b => a.question_index < b.question_index) := by
  have h1 : ((List.range n).map Int.ofNat).Pairwise (fun a b => a < b) := by
    rw [List.pairwise_map]
    exact (List.pairwise_lt_range n).imp (fun hab => by simpa using hab)
  rw [← h, List.pairwise_map] at h1
  exact h1

theorem insertionSort_of_indices (rows : List AnswerRow) (n : Nat)
    (h : rows.map AnswerRow.question_index = (List.range n).map Int.ofNat) :
    rows.insertionSort (fun a b => a.question_index ≤ b.question_index) = rows := by
  apply List.Sorted.insertionSort_eq
  exact (sorted_of_indices rows n h).imp (fun hab => le_of_lt hab)

theorem selectAnswers_of_inv (cat : List Question) (db : DB) (t : String) (hinv : Inv cat db) :
    selectAnswers db t = answersOf db t :=
  insertionSort_of_indices _ _ (hinv.log t)

theorem answersOf_subset (db : DB) (t : String) : ∀ r ∈ answersOf db t, r ∈ db.answers :=
  fun _ hr => (List.mem_filter.1 hr).1

/-- In a database satisfying the invariant the summary of a token is rendered: the
records are those of the token's log, in insertion order. -/
theorem summaryOf_of_inv (cat : List Question) (db : DB) (t : String) (hinv : Inv cat db) :
    ∃ answered, summaryOf cat (answersOf db t)
        = Response.summaryPage answered (correctCount answered) answered.length
      ∧ List.Forall₂ (Rehydrated cat) (answersOf db t) answered := by
  have hs : (answersOf db t).insertionSort (fun a b => a.question_index ≤ b.question_index)
      = answersOf db t := selectAnswers_of_inv cat db t hinv
  obtain ⟨answered, ha⟩ := rehydrate_total cat (answersOf db t) (fun r hr => by
    obtain ⟨q, hq, _⟩ := hinv.snapshot r (answersOf_subset db t r hr)
    exact ⟨q, hq⟩)
  refine ⟨answered, ?_, (rehydrate_eq_some cat _ answered).1 ha⟩
  unfold summaryOf
  rw [hs, ha]

theorem log_length_of_inv (cat : List Question) (db : DB) (t : String) (p : Int)
    (hinv : Inv cat db) (hp : selectCurrentIndex db t = some p) :
    ((answersOf db t).length : Int) = p := by
  have h := congrArg List.length (hinv.log t)
  rw [hp] at h
  simp only [List.length_map, List.length_range, Option.getD_some] at h
  have := (hinv.bounds (t, p) (selectCurrentIndex_mem db t p hp)).1
  simp only at this
  omega

theorem reachable_run_empty (cat : List Question) (actions : List Action) :
    Reachable cat (run cat emptyDB actions) :=
  reachable_run cat actions emptyDB Reachable.init

theorem nextHandler_past_end (cat : List Question) (db : DB) (t a : String) (p : Int)
    (hp : selectCurrentIndex db t = some p) (hN : (cat.length : Int) ≤ p) :
    nextHandler cat db (some t) a = (db, Response.runtimePanic) :=
  nextHandler_of_panic cat db t a p hp (index_none_of_ge cat p hN)

/-! ## Progress and submission -/

/-- C1: in every database reachable from the empty one by start, question, next and end
requests over a catalog of length N, every `current_index` lies in `[0, N]`, and no
request lowers the `current_index` of a token that is present. -/
theorem progress_invariant (cat : List Question) (db : DB) (h : Reachable cat db) :
    (∀ r ∈ db.quiz_state, 0 ≤ r.2 ∧ r.2 ≤ (cat.length : Int))
    ∧ (∀ t p, selectCurrentIndex db t = some p → 0 ≤ p ∧ p ≤ (cat.length : Int))
    ∧ (∀ act t p, selectCurrentIndex db t = some p →
        ∃ p', selectCurrentIndex (handle cat db act).1 t = some p' ∧ p ≤ p') := by
  have hinv := inv_of_reachable cat db h
  refine ⟨hinv.bounds, ?_, ?_⟩
  · intro t p hp
    exact hinv.bounds (t, p) (selectCurrentIndex_mem db t p hp)
  · intro act t p hp
    exact handle_mono cat db act t p hp

theorem progress_invariant_witness :
    Reachable demoCatalog demoMid
    ∧ (∀ r ∈ demoMid.quiz_state, 0 ≤ r.2 ∧ r.2 ≤ (demoCatalog.length : Int))
    ∧ (∀ t p, selectCurrentIndex demoMid t = some p → 0 ≤ p ∧ p ≤ (demoCatalog.length : Int))
    ∧ (∀ act t p, selectCurrentIndex demoMid t = some p →
        ∃ p', selectCurrentIndex (handle demoCatalog demoMid act).1 t = some p' ∧ p ≤ p') :=
  ⟨reachable_run_empty _ _, progress_invariant demoCatalog demoMid (reachable_run_empty _ _)⟩

/-- C2 (evaluation at the failing input): on the finished scenario (index 3 of 3)
`POST /next` ends in the index-out-of-range panic of `allQuestions[currentIndex]` and
leaves the database unchanged, where `GET /q` on the same database redirects to
"/end". -/
theorem next_past_end_panics :
    selectCurrentIndex demoFinished "t" = some 3
    ∧ nextHandler demoCatalog demoFinished (some "t") "A"
        = (demoFinished, Response.runtimePanic)
    ∧ questionHandler demoCatalog demoFinished (some "t")
        = (demoFinished, Response.redirect "/end") := by
  decide

/-- C3: for a known token with index p, 0 ≤ p < N, and any answer s (also the empty
string), `nextHandler` appends exactly the row (token, p, s, correct answer and
difficulty of question p) to `answers`, sets the token's index to p + 1, and redirects
to "/end" exactly when p + 1 = N and to "/q" otherwise. -/
theorem submit_postcondition (cat : List Question) (db : DB) (t s : String) (p : Int)
    (hp : selectCurrentIndex db t = some p) (h0 : 0 ≤ p) (hN : p < (cat.length : Int)) :
    ∃ q, cat[p.toNat]? = some q
      ∧ (nextHandler cat db (some t) s).1.answers
          = db.answers ++ [⟨t, p, s, q.CorrectAnswer, q.Difficulty⟩]
      ∧ answersOf (nextHandler cat db (some t) s).1 t
          = answersOf db t ++ [⟨t, p, s, q.CorrectAnswer, q.Difficulty⟩]
      ∧ selectCurrentIndex (nextHandler cat db (some t) s).1 t = some (p + 1)
      ∧ ((nextHandler cat db (some t) s).2 = Response.redirect "/end"
          ↔ p + 1 = (cat.length : Int))
      ∧ (p + 1 ≠ (cat.length : Int)
          → (nextHandler cat db (some t) s).2 = Response.redirect "/q") := by
  obtain ⟨q, hq⟩ := index_some_of_range cat p h0 hN
  refine ⟨q, (index_eq_some cat p q hq).2.2, ?_⟩
  rw [nextHandler_of_index cat db t s p q hp hq]
  refine ⟨rfl, ?_, ?_, ?_, ?_⟩
  · simp [answersOf_advance]
  · simp [selectCurrentIndex_advance db t t s p q hp]
  · by_cases hlast : p + 1 = (cat.length : Int)
    · simp [hlast]
    · have : ¬ p + 1 ≥ (cat.length : Int) := by omega
      simp [this, hlast]
  · intro hlast
    have : ¬ p + 1 ≥ (cat.length : Int) := by omega
    simp [this]

theorem submit_postcondition_witness :
    selectCurrentIndex demoMid "t" = some 1
    ∧ ∃ q, demoCatalog[(1 : Int).toNat]? = some q
      ∧ (nextHandler demoCatalog demoMid (some "t") "").1.answers
          = demoMid.answers ++ [⟨"t", 1, "", q.CorrectAnswer, q.Difficulty⟩]
      ∧ answersOf (nextHandler demoCatalog demoMid (some "t") "").1 "t"
          = answersOf demoMid "t" ++ [⟨"t", 1, "", q.CorrectAnswer, q.Difficulty⟩]
      ∧ selectCurrentIndex (nextHandler demoCatalog demoMid (some "t") "").1 "t"
          = some ((1 : Int) + 1)
      ∧ ((nextHandler demoCatalog demoMid (some "t") "").2 = Response.redirect "/end"
          ↔ (1 : Int) + 1 = (demoCatalog.length : Int))
      ∧ ((1 : Int) + 1 ≠ (demoCatalog.length : Int)
          → (nextHandler demoCatalog demoMid (some "t") "").2 = Response.redirect "/q") :=
  ⟨by decide,
    submit_postcondition demoCatalog demoMid "t" "" 1 (by decide) (by decide) (by decide)⟩

/-! ## Answering a whole catalog -/

theorem drop_cons_index (cat : List Question) (k : Nat) (q : Question) (qs : List Question)
    (h : cat.drop k = q :: qs) : index cat (k : Int) = some q ∧ cat.drop (k + 1) = qs := by
  constructor
  · have h1 : (cat.drop k).head? = some q := by rw [h]; rfl
    rw [List.head?_drop] at h1
    unfold index
    have : ¬ ((k : Int) < 0) := by omega
    simp only [this, if_false, Int.toNat_ofNat]
    exact h1
  · rw [← List.tail_drop, h]; rfl

theorem rowsFrom_indices (t : String) (qs : List Question) (os : List String) (k : Nat)
    (h : os.length = qs.length) :
    (rowsFrom t k qs os).map AnswerRow.question_index
      = (List.range' k os.length).map Int.ofNat := by
  induction os generalizing k qs with
  | nil => cases qs <;> simp [rowsFrom]
  | cons o os ih =>
    cases qs with
    | nil => simp at h
    | cons q qs =>
      simp only [rowsFrom, List.map_cons, List.length_cons, List.range'_succ]
      rw [ih qs (k + 1) (by simpa using h)]
      rfl

theorem rehydrate_rowsFrom (cat : List Question) (t : String) (os : List String) (k : Nat) :
    rehydrate cat (rowsFrom t k (cat.drop k) os)
      = some (List.zipWith (fun q o => ⟨q, o, q.CorrectAnswer, q.Difficulty⟩)
          (cat.drop k) os) := by
  induction os generalizing k with
  | nil => cases cat.drop k <;> simp [rowsFrom, rehydrate]
  | cons o os ih =>
    cases hd : cat.drop k with
    | nil => simp [rowsFrom, rehydrate]
    | cons q qs =>
      obtain ⟨hq, hqs⟩ := drop_cons_index cat k q qs hd
      have ih' := ih (k + 1)
      rw [hqs] at ih'
      simp only [rowsFrom, rehydrate, hq, ih', List.zipWith_cons_cons]

theorem submitAll_spec (cat : List Question) (t : String) (opts : List String) (db : DB)
    (k : Nat) (hk : selectCurrentIndex db t = some (k : Int))
    (hlen : k + opts.length ≤ cat.length) :
    selectCurrentIndex (submitAll cat db t opts).1 t = some ((k + opts.length : Nat) : Int)
    ∧ answersOf (submitAll cat db t opts).1 t
        = answersOf db t ++ rowsFrom t k (cat.drop k) opts
    ∧ (submitAll cat db t opts).2
        = (List.range' k opts.length).map (fun i =>
            if i + 1 = cat.length then Response.redirect "/end"
            else Response.redirect "/q") := by
  induction opts generalizing db k with
  | nil =>
    refine ⟨by simpa [submitAll] using hk, ?_, by simp [submitAll]⟩
    cases cat.drop k <;> simp [submitAll, rowsFrom]
  | cons o os ih =>
    simp only [List.length_cons] at hlen
    have hklt : k < cat.length := by omega
    have hd : cat.drop k = cat[k] :: cat.drop (k + 1) := List.drop_eq_getElem_cons hklt
    obtain ⟨hq, _⟩ := drop_cons_index cat k _ _ hd
    have hnext := nextHandler_of_index cat db t o (k : Int) cat[k] hk hq
    have hk1 : selectCurrentIndex (advance db t (k : Int) o cat[k]) t
        = some ((k + 1 : Nat) : Int) := by
      rw [selectCurrentIndex_advance db t t o (k : Int) cat[k] hk]
      simp
    obtain ⟨h1, h2, h3⟩ := ih (advance db t (k : Int) o cat[k]) (k + 1) hk1 (by omega)
    simp only [submitAll, hnext]
    refine ⟨?_, ?_, ?_⟩
    · rw [h1]; congr 2; simp only [List.length_cons]; omega
    · rw [h2, answersOf_advance, hd]
      simp [rowsFrom]
    · rw [h3]
      simp only [List.length_cons, List.range'_succ, List.map_cons]
      congr 1
      by_cases hl : k + 1 = cat.length
      · have : ((k : Int) + 1 ≥ (cat.length : Int)) := by omega
        simp [hl, this]
      · have : ¬ ((k : Int) + 1 ≥ (cat.length : Int)) := by omega
        simp [hl, this]

theorem startExamHandler_fresh (db : DB) (t : String) (h : selectCurrentIndex db t = none) :
    startExamHandler db t
      = ({ db with quiz_state := db.quiz_state ++ [(t, 0)] }, Response.redirect "/q") := by
  unfold startExamHandler
  rw [insertQuizState_fresh db t 0 h]

theorem answersOf_unknown (cat : List Question) (db : DB) (t : String) (hinv : Inv cat db)
    (h : selectCurrentIndex db t = none) : answersOf db t = [] := by
  have hl := hinv.log t
  rw [h] at hl
  simpa using hl

theorem captureFinal_past_end (cat : List Question) (db : DB) (m : Method) (t a : String)
    (p : Int) (hN : (cat.length : Int) ≤ p) : captureFinal cat db m t p a = some db := by
  unfold captureFinal
  have : ¬ p < (cat.length : Int) := by omega
  cases m <;> simp [this]

theorem captureFinal_get (cat : List Question) (db : DB) (t a : String) (p : Int) :
    captureFinal cat db Method.GET t p a = some db := by
  simp [captureFinal]

theorem endHandler_eq (cat : List Question) (db db1 : DB) (m : Method) (t a : String) (p : Int)
    (hp : selectCurrentIndex db t = some p) (hc : captureFinal cat db m t p a = some db1) :
    endHandler cat db m (some t) a = (db1, summaryOf cat (answersOf db1 t)) :=
  Prod.ext (endHandler_fst cat db db1 m t a p hp hc) (endHandler_snd cat db db1 m t a p hp hc)

/-- C4: a start with a fresh token followed by N `POST /next` requests (N the catalog
length) redirects to "/q" after each answer but the last and to "/end" after the last,
leaves the index at N, so that `GET /q` redirects to "/end", and the summary (GET or POST)
has exactly N records, for the question indices 0, ..., N-1 in ascending order, the
i-th carrying question i, the i-th submitted answer and question i's correct answer. -/
theorem full_run_summary (cat : List Question) (db : DB) (t : String) (opts : List String)
    (hr : Reachable cat db) (hfresh : selectCurrentIndex db t = none)
    (hlen : opts.length = cat.length) :
    (playAll cat db t opts).2
        = (List.range cat.length).map (fun i =>
            if i + 1 = cat.length then Response.redirect "/end" else Response.redirect "/q")
    ∧ selectCurrentIndex (playAll cat db t opts).1 t = some (cat.length : Int)
    ∧ (questionHandler cat (playAll cat db t opts).1 (some t)).2 = Response.redirect "/end"
    ∧ (selectAnswers (playAll cat db t opts).1 t).map AnswerRow.question_index
        = (List.range cat.length).map Int.ofNat
    ∧ ∀ m a, endHandler cat (playAll cat db t opts).1 m (some t) a
        = ((playAll cat db t opts).1,
            Response.summaryPage
              (List.zipWith (fun q o => ⟨q, o, q.CorrectAnswer, q.Difficulty⟩) cat opts)
              ((List.zipWith (fun q o => (⟨q, o, q.CorrectAnswer, q.Difficulty⟩ :
                  AnsweredQuestion)) cat opts).countP
                (fun x => decide (x.UserAnswer = x.CorrectAnswer)))
              (cat.length : Int)) := by
  have hinv := inv_of_reachable cat db hr
  have hstart := startExamHandler_fresh db t hfresh
  have h0 : selectCurrentIndex (startExamHandler db t).1 t = some ((0 : Nat) : Int) := by
    rw [hstart, selectCurrentIndex_append_fresh db t t 0 hfresh]; simp
  have hlog0 : answersOf (startExamHandler db t).1 t = [] := by
    rw [hstart]; exact answersOf_unknown cat db t hinv hfresh
  obtain ⟨h1, h2, h3⟩ := submitAll_spec cat t opts (startExamHandler db t).1 0 h0 (by omega)
  rw [hlog0, List.nil_append, List.drop_zero] at h2
  have hidx : (answersOf (playAll cat db t opts).1 t).map AnswerRow.question_index
      = (List.range cat.length).map Int.ofNat := by
    unfold playAll
    rw [h2, rowsFrom_indices t cat opts 0 hlen, hlen, List.range_eq_range']
  have hp : selectCurrentIndex (playAll cat db t opts).1 t = some (cat.length : Int) := by
    unfold playAll
    rw [h1, hlen]; simp
  have hsel : selectAnswers (playAll cat db t opts).1 t = answersOf (playAll cat db t opts).1 t :=
    insertionSort_of_indices _ _ hidx
  refine ⟨?_, hp, ?_, ?_, ?_⟩
  · unfold playAll
    rw [h3, hlen, List.range_eq_range']
  · simp [questionHandler, hp]
  · rw [hsel, hidx]
  · intro m a
    rw [endHandler_eq cat _ _ m t a _ hp (captureFinal_past_end cat _ m t a _ (le_refl _))]
    congr 1
    have hre := rehydrate_rowsFrom cat t opts 0
    rw [List.drop_zero] at hre
    have hsel' := hsel
    unfold selectAnswers at hsel'
    unfold summaryOf
    rw [hsel']
    unfold playAll
    rw [h2, hre]
    simp only [correctCount_eq_countP, List.length_zipWith, hlen, min_self]

theorem full_run_summary_witness :
    (Reachable demoCatalog emptyDB ∧ selectCurrentIndex emptyDB "t" = none
      ∧ ["A", "X", "C"].length = demoCatalog.length)
    ∧ ((playAll demoCatalog emptyDB "t" ["A", "X", "C"]).2
          = (List.range demoCatalog.length).map (fun i =>
              if i + 1 = demoCatalog.length then Response.redirect "/end"
              else Response.redirect "/q")
      ∧ selectCurrentIndex (playAll demoCatalog emptyDB "t" ["A", "X", "C"]).1 "t"
          = some (demoCatalog.length : Int)
      ∧ (questionHandler demoCatalog (playAll demoCatalog emptyDB "t" ["A", "X", "C"]).1
            (some "t")).2 = Response.redirect "/end"
      ∧ (selectAnswers (playAll demoCatalog emptyDB "t" ["A", "X", "C"]).1 "t").map
            AnswerRow.question_index = (List.range demoCatalog.length).map Int.ofNat
      ∧ ∀ m a, endHandler demoCatalog (playAll demoCatalog emptyDB "t" ["A", "X", "C"]).1 m
            (some "t") a
          = ((playAll demoCatalog emptyDB "t" ["A", "X", "C"]).1,
              Response.summaryPage
                (List.zipWith (fun q o => ⟨q, o, q.CorrectAnswer, q.Difficulty⟩) demoCatalog
                  ["A", "X", "C"])
                ((List.zipWith (fun q o => (⟨q, o, q.CorrectAnswer, q.Difficulty⟩ :
                    AnsweredQuestion)) demoCatalog ["A", "X", "C"]).countP
                  (fun x => decide (x.UserAnswer = x.CorrectAnswer)))
                (demoCatalog.length : Int)))
    ∧ (selectCurrentIndex (playAll demoCatalog emptyDB "t" ["A"]).1 "t" = some 1
      ∧ selectCurrentIndex (playAll demoCatalog emptyDB "t" ["A", "X"]).1 "t" = some 2
      ∧ selectCurrentIndex (playAll demoCatalog emptyDB "t" ["A", "X", "C"]).1 "t" = some 3
      ∧ (playAll demoCatalog emptyDB "t" ["A", "X", "C"]).2
          = [Response.redirect "/q", Response.redirect "/q", Response.redirect "/end"]
      ∧ (selectAnswers (playAll demoCatalog emptyDB "t" ["A", "X", "C"]).1 "t").map
            (fun r => (r.question_index, r.user_answer, r.correct_answer))
          = [(0, "A", "A"), (1, "X", "B"), (2, "C", "C")]
      ∧ ∃ answered,
          (endHandler demoCatalog (playAll demoCatalog emptyDB "t" ["A", "X", "C"]).1
            Method.GET (some "t") "").2 = Response.summaryPage answered 2 3
          ∧ answered.map (fun x => (x.UserAnswer, x.CorrectAnswer))
              = [("A", "A"), ("X", "B"), ("C", "C")]) :=
  ⟨⟨Reachable.init, by decide, by decide⟩,
    full_run_summary demoCatalog emptyDB "t" ["A", "X", "C"] Reachable.init (by decide)
      (by decide),
    by decide, by decide, by decide, by decide, by decide, ⟨_, rfl, rfl⟩⟩

/-! ## The log -/

theorem pairwise_of_filter (l : List AnswerRow)
    (h : ∀ t, (l.filter (fun r => decide (r.quiz_id = t))).Pairwise
      (fun a b => a.question_index < b.question_index)) :
    l.Pairwise (fun a b => a.quiz_id = b.quiz_id → a.question_index < b.question_index) := by
  induction l with
  | nil => exact List.Pairwise.nil
  | cons a l ih =>
    rw [List.pairwise_cons]
    constructor
    · intro b hb hab
      have ha := h a.quiz_id
      simp only [List.filter_cons, decide_True, if_true, List.pairwise_cons] at ha
      exact ha.1 b (List.mem_filter.2 ⟨hb, by simp [hab]⟩)
    · apply ih
      intro t
      have ht := h t
      rw [List.filter_cons] at ht
      split at ht
      · exact (List.pairwise_cons.1 ht).2
      · exact ht

/-- C6: in every reachable database the question indices of each token's answer rows,
in insertion order, are exactly 0, 1, ..., `current_index` - 1 (none for a token without
`quiz_state` row), hence strictly increasing and one row per consumed question, and no
two rows of `answers` share the pair (`quiz_id`, `question_index`). -/
theorem log_invariant (cat : List Question) (db : DB) (hr : Reachable cat db) :
    (∀ t, (answersOf db t).map AnswerRow.question_index
        = (List.range ((selectCurrentIndex db t).getD 0).toNat).map Int.ofNat)
    ∧ (∀ t, (answersOf db t).Pairwise (fun a b => a.question_index < b.question_index))
    ∧ (∀ t p, selectCurrentIndex db t = some p → ((answersOf db t).length : Int) = p)
    ∧ (db.answers.map (fun r => (r.quiz_id, r.question_index))).Nodup := by
  have hinv := inv_of_reachable cat db hr
  have hsorted : ∀ t, (answersOf db t).Pairwise
      (fun a b => a.question_index < b.question_index) :=
    fun t => sorted_of_indices _ _ (hinv.log t)
  refine ⟨hinv.log, hsorted, ?_, ?_⟩
  · intro t p hp
    exact log_length_of_inv cat db t p hinv hp
  · unfold List.Nodup
    rw [List.pairwise_map]
    refine (pairwise_of_filter db.answers hsorted).imp ?_
    intro a b hab heq
    have h1 : a.quiz_id = b.quiz_id := congrArg Prod.fst heq
    have h2 : a.question_index = b.question_index := congrArg Prod.snd heq
    have := hab h1
    omega

theorem log_invariant_witness :
    Reachable demoCatalog demoFinished
    ∧ (∀ t, (answersOf demoFinished t).map AnswerRow.question_index
        = (List.range ((selectCurrentIndex demoFinished t).getD 0).toNat).map Int.ofNat)
    ∧ (∀ t, (answersOf demoFinished t).Pairwise
        (fun a b => a.question_index < b.question_index))
    ∧ (∀ t p, selectCurrentIndex demoFinished t = some p
        → ((answersOf demoFinished t).length : Int) = p)
    ∧ (demoFinished.answers.map (fun r => (r.quiz_id, r.question_index))).Nodup :=
  ⟨reachable_run_empty _ _, log_invariant demoCatalog demoFinished (reachable_run_empty _ _)⟩

theorem captureFinal_post_index (cat : List Question) (db : DB) (t a : String) (p : Int)
    (q : Question) (hq : index cat p = some q) :
    captureFinal cat db Method.POST t p a = some (advance db t p a q) := by
  have hlt := (index_eq_some cat p q hq).2.1
  simp [captureFinal, hlt, hq, advance]

theorem captureFinal_post_panic (cat : List Question) (db : DB) (t a : String) (p : Int)
    (hq : index cat p = none) (hlt : p < (cat.length : Int)) :
    captureFinal cat db Method.POST t p a = none := by
  simp [captureFinal, hlt, hq]

theorem endHandler_summary_inv (cat : List Question) (db : DB) (m : Method) (t a : String)
    (answered : List AnsweredQuestion) (c n : Int)
    (h : (endHandler cat db m (some t) a).2 = Response.summaryPage answered c n) :
    summaryOf cat (answersOf (endHandler cat db m (some t) a).1 t)
      = Response.summaryPage answered c n := by
  cases hp : selectCurrentIndex db t with
  | none =>
    rw [endHandler_unknown cat db m t a hp] at h
    exact Response.noConfusion h
  | some p =>
    cases hc : captureFinal cat db m t p a with
    | none =>
      rw [endHandler_fst_panic cat db m t a p hp hc] at h
      exact Response.noConfusion h
    | some db1 =>
      rw [endHandler_eq cat db db1 m t a p hp hc] at h ⊢
      exact h

theorem endHandler_reachable (cat : List Question) (db : DB) (m : Method) (q : Option String)
    (a : String) (hr : Reachable cat db) : Reachable cat (endHandler cat db m q a).1 :=
  Reachable.step (Action.finish m q a) hr

/-- C7: on a reachable database where the token's index is k < N, `GET /end` renders a
summary of exactly k records and leaves the database (so the index k) unchanged, while
`POST /end` first appends the row for question k with the pending answer, sets the index
to k + 1 and renders a summary of exactly k + 1 records. -/
theorem partial_summary (cat : List Question) (db : DB) (t a : String) (k : Int)
    (hr : Reachable cat db) (hk : selectCurrentIndex db t = some k)
    (hlt : k < (cat.length : Int)) :
    (∃ answered c, endHandler cat db Method.GET (some t) a
          = (db, Response.summaryPage answered c k)
        ∧ (answered.length : Int) = k
        ∧ List.Forall₂ (Rehydrated cat) (answersOf db t) answered)
    ∧ (∃ q answered c, index cat k = some q
        ∧ (endHandler cat db Method.POST (some t) a).2 = Response.summaryPage answered c (k + 1)
        ∧ (answered.length : Int) = k + 1
        ∧ List.Forall₂ (Rehydrated cat)
            (answersOf db t ++ [⟨t, k, a, q.CorrectAnswer, q.Difficulty⟩]) answered
        ∧ (endHandler cat db Method.POST (some t) a).1.answers
            = db.answers ++ [⟨t, k, a, q.CorrectAnswer, q.Difficulty⟩]
        ∧ selectCurrentIndex (endHandler cat db Method.POST (some t) a).1 t = some (k + 1)) := by
  have hinv := inv_of_reachable cat db hr
  have hk0 : 0 ≤ k := (hinv.bounds (t, k) (selectCurrentIndex_mem db t k hk)).1
  constructor
  · obtain ⟨answered, hs, hf⟩ := summaryOf_of_inv cat db t hinv
    have hlen : (answered.length : Int) = k := by
      rw [← hf.length_eq]; exact log_length_of_inv cat db t k hinv hk
    refine ⟨answered, correctCount answered, ?_, hlen, hf⟩
    rw [endHandler_eq cat db db Method.GET t a k hk (captureFinal_get cat db t a k), hs, hlen]
  · obtain ⟨q, hq⟩ := index_some_of_range cat k hk0 hlt
    have hinv' := inv_advance cat db t a k q hinv hk hq
    have hk' : selectCurrentIndex (advance db t k a q) t = some (k + 1) := by
      rw [selectCurrentIndex_advance db t t a k q hk]; simp
    obtain ⟨answered, hs, hf⟩ := summaryOf_of_inv cat (advance db t k a q) t hinv'
    have hlen : (answered.length : Int) = k + 1 := by
      rw [← hf.length_eq]; exact log_length_of_inv cat _ t (k + 1) hinv' hk'
    have he := endHandler_eq cat db _ Method.POST t a k hk
      (captureFinal_post_index cat db t a k q hq)
    refine ⟨q, answered, correctCount answered, hq, ?_, hlen, ?_, ?_, ?_⟩
    · rw [he, hs, hlen]
    · have := answersOf_advance db t t a k q
      rw [if_pos rfl] at this
      rw [← this]; exact hf
    · rw [he]; rfl
    · rw [he]; exact hk'

theorem partial_summary_witness :
    (Reachable demoCatalog demoMid ∧ selectCurrentIndex demoMid "t" = some 1
      ∧ (1 : Int) < (demoCatalog.length : Int))
    ∧ (∃ answered c, endHandler demoCatalog demoMid Method.GET (some "t") "B"
          = (demoMid, Response.summaryPage answered c 1)
        ∧ (answered.length : Int) = 1
        ∧ List.Forall₂ (Rehydrated demoCatalog) (answersOf demoMid "t") answered)
    ∧ (∃ q answered c, index demoCatalog 1 = some q
        ∧ (endHandler demoCatalog demoMid Method.POST (some "t") "B").2
            = Response.summaryPage answered c (1 + 1)
        ∧ (answered.length : Int) = 1 + 1
        ∧ List.Forall₂ (Rehydrated demoCatalog)
            (answersOf demoMid "t" ++ [⟨"t", 1, "B", q.CorrectAnswer, q.Difficulty⟩]) answered
        ∧ (endHandler demoCatalog demoMid Method.POST (some "t") "B").1.answers
            = demoMid.answers ++ [⟨"t", 1, "B", q.CorrectAnswer, q.Difficulty⟩]
        ∧ selectCurrentIndex (endHandler demoCatalog demoMid Method.POST (some "t") "B").1 "t"
            = some (1 + 1)) :=
  ⟨⟨reachable_run_empty _ _, by decide, by decide⟩,
    partial_summary demoCatalog demoMid "t" "B" 1 (reachable_run_empty _ _) (by decide)
      (by decide)⟩

/-- C8: whenever `endHandler` renders a summary, its `Correct` is the number of records
whose user answer is string-equal to the record's correct answer, its `Total` is the
number of records, which is the number of the token's answer rows, and
0 ≤ `Correct` ≤ `Total`; on a reachable database a summary is rendered for every token
that is present. -/
theorem summary_counts (cat : List Question) (db : DB) (m : Method) (t a : String) :
    (∀ answered c n,
        (endHandler cat db m (some t) a).2 = Response.summaryPage answered c n →
        c = (answered.countP (fun x => decide (x.UserAnswer = x.CorrectAnswer)) : Int)
        ∧ n = (answered.length : Int)
        ∧ answered.length = (answersOf (endHandler cat db m (some t) a).1 t).length
        ∧ 0 ≤ c ∧ c ≤ n)
    ∧ (Reachable cat db → selectCurrentIndex db t ≠ none →
        ∃ answered c n,
          (endHandler cat db m (some t) a).2 = Response.summaryPage answered c n) := by
  constructor
  · intro answered c n h
    obtain ⟨_, hc, hn, hl⟩ := summaryOf_summary cat _ answered c n
      (endHandler_summary_inv cat db m t a answered c n h)
    have hb := correctCount_bounds answered
    rw [hc, hn]
    exact ⟨correctCount_eq_countP answered, rfl, hl, hb.1, hb.2⟩
  · intro hr hknown
    have hinv := inv_of_reachable cat db hr
    cases hp : selectCurrentIndex db t with
    | none => exact absurd hp hknown
    | some p =>
      have hp0 : 0 ≤ p := (hinv.bounds (t, p) (selectCurrentIndex_mem db t p hp)).1
      have hinv' := inv_of_reachable cat _ (endHandler_reachable cat db m (some t) a hr)
      obtain ⟨answered, hs, _⟩ := summaryOf_of_inv cat _ t hinv'
      rcases captureFinal_cases cat db m t a p with h | h | ⟨q, _, _, h⟩
      · omega
      · have he := endHandler_eq cat db db m t a p hp h.1
        rw [he] at hs ⊢
        exact ⟨answered, _, _, hs⟩
      · have he := endHandler_eq cat db _ m t a p hp h
        rw [he] at hs ⊢
        exact ⟨answered, _, _, hs⟩

theorem summary_counts_witness :
    (∀ answered c n,
        (endHandler demoCatalog demoFinished Method.GET (some "t") "").2
          = Response.summaryPage answered c n →
        c = (answered.countP (fun x => decide (x.UserAnswer = x.CorrectAnswer)) : Int)
        ∧ n = (answered.length : Int)
        ∧ answered.length
          = (answersOf (endHandler demoCatalog demoFinished Method.GET (some "t") "").1
              "t").length
        ∧ 0 ≤ c ∧ c ≤ n)
    ∧ ∃ answered, (endHandler demoCatalog demoFinished Method.GET (some "t") "").2
        = Response.summaryPage answered 2 3 :=
  ⟨(summary_counts demoCatalog demoFinished Method.GET "t" "").1, ⟨_, rfl⟩⟩

/-! ## Requests of other tokens -/

theorem handle_frame (cat : List Question) (db : DB) (act : Action) (u : String)
    (hact : act.token ≠ some u) :
    selectCurrentIndex (handle cat db act).1 u = selectCurrentIndex db u
    ∧ answersOf (handle cat db act).1 u = answersOf db u := by
  rcases handle_cases_token cat db act with h | ⟨t, htok, ht, h⟩ | ⟨t, p, a, q, htok, hp, _, h⟩
  · rw [h]; exact ⟨rfl, rfl⟩
  · have hut : ¬ u = t := fun e => hact (by rw [htok, e])
    rw [h, selectCurrentIndex_append_fresh db t u 0 ht]
    exact ⟨by simp [hut], rfl⟩
  · have hut : ¬ u = t := fun e => hact (by rw [htok, e])
    rw [h, selectCurrentIndex_advance db t u a p q hp, answersOf_advance]
    exact ⟨by simp [hut], by simp [hut]⟩

theorem questionHandler_snd_congr (cat : List Question) (db db' : DB) (u : String)
    (h : selectCurrentIndex db' u = selectCurrentIndex db u) :
    (questionHandler cat db' (some u)).2 = (questionHandler cat db (some u)).2 := by
  unfold questionHandler
  simp only [h]
  cases selectCurrentIndex db u with
  | none => rfl
  | some p =>
    simp only []
    split
    · rfl
    · cases index cat p <;> rfl

theorem endHandler_snd_congr (cat : List Question) (db db' : DB) (m : Method) (u a : String)
    (h1 : selectCurrentIndex db' u = selectCurrentIndex db u)
    (h2 : answersOf db' u = answersOf db u) :
    (endHandler cat db' m (some u) a).2 = (endHandler cat db m (some u) a).2 := by
  cases hp : selectCurrentIndex db u with
  | none =>
    rw [endHandler_unknown cat db m u a hp, endHandler_unknown cat db' m u a (h1.trans hp)]
  | some p =>
    have hp' := h1.trans hp
    cases m with
    | GET =>
      rw [endHandler_eq cat db db _ u a p hp (captureFinal_get cat db u a p),
        endHandler_eq cat db' db' _ u a p hp' (captureFinal_get cat db' u a p), h2]
    | POST =>
      by_cases hN : (cat.length : Int) ≤ p
      · rw [endHandler_eq cat db db _ u a p hp (captureFinal_past_end cat db _ u a p hN),
          endHandler_eq cat db' db' _ u a p hp' (captureFinal_past_end cat db' _ u a p hN), h2]
      · cases hq : index cat p with
        | none =>
          rw [endHandler_fst_panic cat db _ u a p hp
              (captureFinal_post_panic cat db u a p hq (by omega)),
            endHandler_fst_panic cat db' _ u a p hp'
              (captureFinal_post_panic cat db' u a p hq (by omega))]
        | some q =>
          rw [endHandler_eq cat db _ _ u a p hp (captureFinal_post_index cat db u a p q hq),
            endHandler_eq cat db' _ _ u a p hp' (captureFinal_post_index cat db' u a p q hq)]
          simp only [answersOf_advance, if_true, h2]

/-- C9: a request addressed to another token than u leaves u's index and u's answer rows
unchanged, so `GET /q` and `/end` for u answer the same before and after it; and a start
with a fresh token on a reachable database gives that token index 0 and no answer
rows. -/
theorem token_isolation (cat : List Question) (db : DB) (act : Action) (u : String)
    (hact : act.token ≠ some u) :
    selectCurrentIndex (handle cat db act).1 u = selectCurrentIndex db u
    ∧ answersOf (handle cat db act).1 u = answersOf db u
    ∧ (questionHandler cat (handle cat db act).1 (some u)).2
        = (questionHandler cat db (some u)).2
    ∧ (∀ m a, (endHandler cat (handle cat db act).1 m (some u) a).2
        = (endHandler cat db m (some u) a).2)
    ∧ (∀ t, Reachable cat db → selectCurrentIndex db t = none →
        (startExamHandler db t).2 = Response.redirect "/q"
        ∧ selectCurrentIndex (startExamHandler db t).1 t = some 0
        ∧ answersOf (startExamHandler db t).1 t = []) := by
  obtain ⟨h1, h2⟩ := handle_frame cat db act u hact
  refine ⟨h1, h2, questionHandler_snd_congr cat db _ u h1,
    fun m a => endHandler_snd_congr cat db _ m u a h1 h2, ?_⟩
  intro t hr hfresh
  rw [startExamHandler_fresh db t hfresh]
  refine ⟨rfl, ?_, answersOf_unknown cat db t (inv_of_reachable cat db hr) hfresh⟩
  rw [selectCurrentIndex_append_fresh db t t 0 hfresh]; simp

theorem token_isolation_witness :
    (Action.start "t2").token ≠ some "t"
    ∧ (selectCurrentIndex (handle demoCatalog demoMid (Action.start "t2")).1 "t"
        = selectCurrentIndex demoMid "t"
      ∧ answersOf (handle demoCatalog demoMid (Action.start "t2")).1 "t"
          = answersOf demoMid "t"
      ∧ (questionHandler demoCatalog (handle demoCatalog demoMid (Action.start "t2")).1
            (some "t")).2 = (questionHandler demoCatalog demoMid (some "t")).2
      ∧ (∀ m a, (endHandler demoCatalog (handle demoCatalog demoMid (Action.start "t2")).1 m
            (some "t") a).2 = (endHandler demoCatalog demoMid m (some "t") a).2)
      ∧ (∀ t, Reachable demoCatalog demoMid → selectCurrentIndex demoMid t = none →
          (startExamHandler demoMid t).2 = Response.redirect "/q"
          ∧ selectCurrentIndex (startExamHandler demoMid t).1 t = some 0
          ∧ answersOf (startExamHandler demoMid t).1 t = []))
    ∧ selectCurrentIndex demoMid "t" = some 1
    ∧ selectCurrentIndex (handle demoCatalog demoMid (Action.start "t2")).1 "t2" = some 0 :=
  ⟨by decide, token_isolation demoCatalog demoMid (Action.start "t2") "t" (by decide),
    by decide, by decide⟩

/-! ## Scoring of empty answers -/

theorem forall₂_right_mem {R : AnswerRow → AnsweredQuestion → Prop} {rows : List AnswerRow}
    {answered : List AnsweredQuestion} (h : List.Forall₂ R rows answered) :
    ∀ x ∈ answered, ∃ r ∈ rows, R r x := by
  induction h with
  | nil => intro x hx; simp at hx
  | cons hr _ ih =>
    intro x hx
    rcases List.mem_cons.1 hx with hx | hx
    · subst hx; exact ⟨_, List.mem_cons_self _ _, hr⟩
    · obtain ⟨r, hr1, hr2⟩ := ih x hx
      exact ⟨r, List.mem_cons_of_mem _ hr1, hr2⟩

theorem index_mem (cat : List Question) (i : Int) (q : Question) (h : index cat i = some q) :
    q ∈ cat :=
  List.getElem?_mem (index_eq_some cat i q h).2.2

/-- C5 (counterexample): over a catalog whose only question has the empty string as
correct answer, after a start and one empty answer, the summary counts 1 correct of 1,
though no record has a non-empty user answer equal to its correct answer. -/
theorem empty_answer_counted :
    Reachable blankCatalog blankDB
    ∧ ∃ answered,
        (endHandler blankCatalog blankDB Method.GET (some "t") "").2
          = Response.summaryPage answered 1 1
        ∧ answered.map AnsweredQuestion.UserAnswer = [""]
        ∧ (answered.countP
            (fun x => decide (x.UserAnswer ≠ "" ∧ x.UserAnswer = x.CorrectAnswer)) : Int) = 0
        ∧ (1 : Int) ≠ 0 :=
  ⟨reachable_run_empty _ _, _, rfl, rfl, by decide, by decide⟩

/-- C5 (amended): an empty answer is stored verbatim by `nextHandler`; `Correct` is the
number of records whose user answer equals the record's correct answer, and when every
question of the catalog has a non-empty correct answer, on a reachable database, it is
the number of records with a non-empty user answer equal to the record's correct answer,
so that a record with an empty user answer is never counted. -/
theorem empty_answer_scoring (cat : List Question) (db : DB) (m : Method) (t a : String)
    (hr : Reachable cat db) (hne : ∀ q ∈ cat, q.CorrectAnswer ≠ "") :
    (∀ p, selectCurrentIndex db t = some p → p < (cat.length : Int) →
        ∃ q, index cat p = some q
          ∧ (nextHandler cat db (some t) "").1.answers
              = db.answers ++ [⟨t, p, "", q.CorrectAnswer, q.Difficulty⟩])
    ∧ (∀ answered c n,
        (endHandler cat db m (some t) a).2 = Response.summaryPage answered c n →
        c = (answered.countP (fun x => decide (x.UserAnswer = x.CorrectAnswer)) : Int)
        ∧ c = (answered.countP
            (fun x => decide (x.UserAnswer ≠ "" ∧ x.UserAnswer = x.CorrectAnswer)) : Int)
        ∧ ∀ x ∈ answered, x.UserAnswer = "" → x.UserAnswer ≠ x.CorrectAnswer) := by
  have hinv := inv_of_reachable cat db hr
  constructor
  · intro p hp hlt
    have hp0 : 0 ≤ p := (hinv.bounds (t, p) (selectCurrentIndex_mem db t p hp)).1
    obtain ⟨q, hq⟩ := index_some_of_range cat p hp0 hlt
    refine ⟨q, hq, ?_⟩
    rw [nextHandler_of_index cat db t "" p q hp hq]
    rfl
  · intro answered c n h
    have hinv' := inv_of_reachable cat _ (endHandler_reachable cat db m (some t) a hr)
    obtain ⟨hf, hc, _, _⟩ := summaryOf_summary cat _ answered c n
      (endHandler_summary_inv cat db m t a answered c n h)
    have hca : ∀ x ∈ answered, x.CorrectAnswer ≠ "" := by
      intro x hx
      obtain ⟨r, hr1, _, _, hr3, _⟩ := forall₂_right_mem hf x hx
      have hmem := answersOf_subset _ t r ((List.mem_insertionSort _).1 hr1)
      obtain ⟨q, hq, hqc, _⟩ := hinv'.snapshot r hmem
      rw [hr3, hqc]
      exact hne q (index_mem cat _ q hq)
    have hcount := correctCount_eq_countP answered
    refine ⟨by rw [hc, hcount], ?_, ?_⟩
    · rw [hc, hcount]
      congr 1
      apply List.countP_congr
      intro x hx
      have := hca x hx
      simp only [decide_eq_true_eq]
      constructor
      · intro e; exact ⟨fun e0 => this (by rw [← e, e0]), e⟩
      · intro e; exact e.2
    · intro x hx he heq
      exact hca x hx (by rw [← heq, he])

theorem empty_answer_scoring_witness :
    (Reachable demoCatalog demoMid ∧ ∀ q ∈ demoCatalog, q.CorrectAnswer ≠ "")
    ∧ (∀ p, selectCurrentIndex demoMid "t" = some p → p < (demoCatalog.length : Int) →
        ∃ q, index demoCatalog p = some q
          ∧ (nextHandler demoCatalog demoMid (some "t") "").1.answers
              = demoMid.answers ++ [⟨"t", p, "", q.CorrectAnswer, q.Difficulty⟩])
    ∧ (∀ answered c n,
        (endHandler demoCatalog demoMid Method.POST (some "t") "").2
          = Response.summaryPage answered c n →
        c = (answered.countP (fun x => decide (x.UserAnswer = x.CorrectAnswer)) : Int)
        ∧ c = (answered.countP
            (fun x => decide (x.UserAnswer ≠ "" ∧ x.UserAnswer = x.CorrectAnswer)) : Int)
        ∧ ∀ x ∈ answered, x.UserAnswer = "" → x.UserAnswer ≠ x.CorrectAnswer) :=
  ⟨⟨reachable_run_empty _ _, by decide⟩,
    empty_answer_scoring demoCatalog demoMid Method.POST "t" "" (reachable_run_empty _ _)
      (by decide)⟩

/-! ## Finishing twice -/

theorem endHandler_get_fst (cat : List Question) (db : DB) (q : Option String) (a : String) :
    (endHandler cat db Method.GET q a).1 = db := by
  cases q with
  | none => rfl
  | some t =>
    cases hp : selectCurrentIndex db t with
    | none => rw [endHandler_unknown cat db _ t a hp]
    | some p => exact endHandler_fst cat db db _ t a p hp (captureFinal_get cat db t a p)

/-- C10: when the token's index is at least N, `/end` (POST with any pending answer, or
GET) leaves the database unchanged, so after any number of such requests the handler
answers exactly as the first time, whatever the method and pending answer; and
`GET /end` leaves the database unchanged at every index. -/
theorem finish_idempotent (cat : List Question) (db : DB) (t : String) :
    (∀ p m a, selectCurrentIndex db t = some p → (cat.length : Int) ≤ p →
        (endHandler cat db m (some t) a).1 = db)
    ∧ (∀ q a, (endHandler cat db Method.GET q a).1 = db)
    ∧ (∀ p, selectCurrentIndex db t = some p → (cat.length : Int) ≤ p →
        ∀ (reqs : List (Method × String)) m a,
          run cat db (reqs.map (fun r => Action.finish r.1 (some t) r.2)) = db
          ∧ endHandler cat (run cat db (reqs.map (fun r => Action.finish r.1 (some t) r.2)))
              m (some t) a = endHandler cat db Method.GET (some t) "") := by
  have hfix : ∀ p m a, selectCurrentIndex db t = some p → (cat.length : Int) ≤ p →
      endHandler cat db m (some t) a = (db, summaryOf cat (answersOf db t)) :=
    fun p m a hp hN =>
      endHandler_eq cat db db m t a p hp (captureFinal_past_end cat db m t a p hN)
  refine ⟨fun p m a hp hN => by rw [hfix p m a hp hN], endHandler_get_fst cat db, ?_⟩
  intro p hp hN reqs m a
  have hrun : run cat db (reqs.map (fun r => Action.finish r.1 (some t) r.2)) = db := by
    induction reqs with
    | nil => rfl
    | cons r rest ih =>
      simp only [List.map_cons, run, List.foldl_cons, handle]
      rw [hfix p r.1 r.2 hp hN]
      exact ih
  rw [hrun, hfix p m a hp hN, hfix p Method.GET "" hp hN]
  exact ⟨rfl, rfl⟩

theorem finish_idempotent_witness :
    (∀ p m a, selectCurrentIndex demoFinished "t" = some p → (demoCatalog.length : Int) ≤ p →
        (endHandler demoCatalog demoFinished m (some "t") a).1 = demoFinished)
    ∧ (∀ q a, (endHandler demoCatalog demoFinished Method.GET q a).1 = demoFinished)
    ∧ (∀ p, selectCurrentIndex demoFinished "t" = some p → (demoCatalog.length : Int) ≤ p →
        ∀ (reqs : List (Method × String)) m a,
          run demoCatalog demoFinished (reqs.map (fun r => Action.finish r.1 (some "t") r.2))
            = demoFinished
          ∧ endHandler demoCatalog
              (run demoCatalog demoFinished
                (reqs.map (fun r => Action.finish r.1 (some "t") r.2)))
              m (some "t") a = endHandler demoCatalog demoFinished Method.GET (some "t") "")
    ∧ selectCurrentIndex demoFinished "t" = some 3
    ∧ (endHandler demoCatalog demoFinished Method.POST (some "t") "B").1 = demoFinished :=
  ⟨(finish_idempotent demoCatalog demoFinished "t").1,
    (finish_idempotent demoCatalog demoFinished "t").2.1,
    (finish_idempotent demoCatalog demoFinished "t").2.2, by decide, by decide⟩

end PmpQuizzer
